import Mathlib

/-!
A shallow embedding of the core of the moonsheep engine as found in
`moonsheep/views.py`: the form-data normalizer `unpack_post`, the task
selection algorithm `TaskView.choose_a_task`, the manual-verification
commit path `ManualVerificationView._save_entry`, the task-tree builder of
`DocumentListView.get_context_data`, the POST dispatch gate of
`TaskView.post` and the per-field option collection of
`ManualVerificationView.get_context_data`.

Conventions of the embedding:
* Python dicts are insertion-ordered association lists with unique keys.
* Python exceptions are `Except` errors / explicit error components.
* `random.choice(xs)` is modelled by an arbitrary index reduced modulo
  `xs.length`, quantified over in the theorems.
* The iteration order of the Python set `convert_to_array_paths` is
  unspecified in Python (string hashing is randomized); we model it as
  first-insertion order, which within each field name lists outer paths
  before the nested paths below them.
-/

namespace Moonsheep

/-- Characters matched by the character class `[\w\-_]` of the field-name
regular expression in `unpack_post` (ASCII reading of `\w`). -/
def isWordChar (c : Char) : Bool := c.isAlphanum || c = '-' || c = '_'

/-- One digit of Python `int(s)` applied to a bracket segment (used in
`numeric_keys = [int(k_int) for k_int in d.keys()]`): segments contain no
sign or whitespace, so conversion succeeds exactly on nonempty all-digit
strings; `none` models the `ValueError` raised otherwise. -/
def digitStep (acc : Option Nat) (c : Char) : Option Nat :=
  match acc with
  | none => none
  | some n => if c.isDigit then some (n * 10 + (c.toNat - '0'.toNat)) else none

/-- Python `int(s)` on a segment, as a fold of `digitStep`. -/
def charsToNat? (cs : List Char) : Option Nat :=
  match cs with
  | [] => none
  | _ => cs.foldl digitStep (some 0)

/-- Auxiliary decimal rendering, structurally recursive on a fuel bound so
that it reduces inside the kernel. -/
def natToCharsAux : Nat → Nat → List Char
  | 0, _ => []
  | fuel+1, n =>
    if n < 10 then [Nat.digitChar n]
    else natToCharsAux fuel (n / 10) ++ [Nat.digitChar (n % 10)]

/-- Python `str(k_int)` for a natural number. -/
def natToChars (n : Nat) : List Char := natToCharsAux (n + 1) n

/-- Python `str(k_int)` producing a `String`. -/
def natToStr (n : Nat) : String := ⟨natToChars n⟩

/-- The values manipulated by `unpack_post`:
plain strings, lists of strings (multi-valued fields),
insertion-ordered dicts, and lists produced by the array-conversion pass. -/
inductive PVal where
  | str : String → PVal
  | strs : List String → PVal
  | obj : List (String × PVal) → PVal
  | arr : List PVal → PVal

/-- State machine for the field-name regular expression
`^(?P<object>[\w\-_]+)(?P<selectors>(\[[\d\w\-_]+\])*)(?P<trailing_brackets>\[\])?$`. -/
inductive KeyParseState where
  | name (acc : List Char)
  | between (name : List Char) (segs : List (List Char))
  | inSeg (name : List Char) (segs : List (List Char)) (acc : List Char)
  | trailing (name : List Char) (segs : List (List Char))
  | failed
deriving DecidableEq, Repr

/-- One step of the field-name state machine. -/
def keyParseStep (s : KeyParseState) (c : Char) : KeyParseState :=
  match s with
  | .name acc =>
    if isWordChar c then .name (acc ++ [c])
    else if c = '[' then (if acc = [] then .failed else .inSeg acc [] [])
    else .failed
  | .between name segs =>
    if c = '[' then .inSeg name segs [] else .failed
  | .inSeg name segs acc =>
    if isWordChar c then .inSeg name segs (acc ++ [c])
    else if c = ']' then
      (if acc = [] then .trailing name segs else .between name (segs ++ [acc]))
    else .failed
  | .trailing _ _ => .failed
  | .failed => .failed

/-- Accepting states of the field-name machine, returning
`(rootName, segmentKeys, forcedArray)`; `none` models a regular-expression
mismatch (the `Exception("Field name not valid")` branch). -/
def keyParseFinish (s : KeyParseState) : Option (List Char × List (List Char) × Bool) :=
  match s with
  | .name acc => if acc = [] then none else some (acc, [], false)
  | .between name segs => some (name, segs, false)
  | .trailing name segs => some (name, segs, true)
  | _ => none

/-- Match a raw field name against the body of the `unpack_post` regular
expression, with the dollar anchor taken at the end of the candidate text. -/
def parseKeyCore (k : String) : Option (List Char × List (List Char) × Bool) :=
  keyParseFinish (k.toList.foldl keyParseStep (.name []))

/-- Parse a raw field name as `re.search` does in `unpack_post`: without
`re.MULTILINE` the dollar anchor matches at the end of the string and also
just before one trailing newline, so a key ending in a newline is matched
again with that final newline stripped. -/
def parseKey (k : String) : Option (List Char × List (List Char) × Bool) :=
  match parseKeyCore k with
  | some r => some r
  | none =>
    if k.toList.getLast? = some '\n' then parseKeyCore ⟨k.toList.dropLast⟩
    else none

/-- Model of `QueryDict` keys: first occurrence order, duplicates removed. -/
def qKeys (post : List (String × String)) : List String :=
  post.foldl (fun acc p => if p.1 ∈ acc then acc else acc ++ [p.1]) []

/-- Model of `QueryDict.getlist(k)`: every value submitted under key `k`, in order. -/
def getlist (post : List (String × String)) (k : String) : List String :=
  (post.filter (fun p => p.1 = k)).map (·.2)

/-- The helper `get_list_or_value` of `unpack_post`: collapse a single value to a plain
string unless the developer forced an array with trailing brackets. -/
def get_list_or_value (post : List (String × String)) (k : String)
    (trailingBrackets : Bool) : PVal :=
  match getlist post k, trailingBrackets with
  | [v], false => .str v
  | vs, _ => .strs vs

/-- Replace the value bound to `k`, or append the binding (Python dict
assignment on an insertion-ordered dict). -/
def objUpdate {α : Type} (fs : List (String × α)) (k : String) (v : α) :
    List (String × α) :=
  if fs.any (·.1 = k) then fs.map (fun p => if p.1 = k then (k, v) else p)
  else fs ++ [(k, v)]

/-- Model of `dpath.util.new(result, path, value)`: walk the path, creating
intermediate dicts as necessary, and set the leaf.  A non-dict met along the
way is replaced by a fresh dict. -/
def dpathNew (v : PVal) (path : List String) (leaf : PVal) : PVal :=
  match path with
  | [] => leaf
  | k :: rest =>
    let fs := match v with | .obj fs => fs | _ => []
    let old := (fs.lookup k).getD (.obj [])
    .obj (objUpdate fs k (dpathNew old rest leaf))

/-- Model of `dpath.util.get(result, path)`: `none` models the `KeyError` raised when
the path does not resolve.  After an array conversion, dpath addresses list
elements by the numeric value of the path segment. -/
def dpathGet (v : PVal) (path : List String) : Option PVal :=
  match path with
  | [] => some v
  | k :: rest =>
    match v with
    | .obj fs => match fs.lookup k with
      | some v2 => dpathGet v2 rest
      | none => none
    | .arr xs => match charsToNat? k.toList with
      | some i => match xs[i]? with
        | some v2 => dpathGet v2 rest
        | none => none
      | none => none
    | _ => none

/-- Model of `dpath.util.set(result, path, value)`: set every existing match of the
path; a path that does not resolve sets nothing. -/
def dpathSet (v : PVal) (path : List String) (newV : PVal) : PVal :=
  match path with
  | [] => newV
  | k :: rest =>
    match v with
    | .obj fs => .obj (fs.map (fun p => if p.1 = k then (k, dpathSet p.2 rest newV) else p))
    | .arr xs => match charsToNat? k.toList with
      | some i => .arr (xs.mapIdx (fun j x => if j = i then dpathSet x rest newV else x))
      | none => .arr xs
    | other => other

/-- Errors surfaced by `unpack_post`.  `malformedFieldName` is the
`Exception("Field name not valid")` branch; `inconsistentArrayObjectMixing`
is the `ValueError` of `int()` on a non-numeric key during array conversion;
`keyError` is dpath's `KeyError` when a recorded conversion path no longer
resolves; `notADict` is the `AttributeError` of `.keys()` on a non-dict. -/
inductive NErr where
  | malformedFieldName (k : String)
  | inconsistentArrayObjectMixing
  | keyError
  | notADict
deriving DecidableEq, Repr

/-- The conversion paths recorded while inserting one parsed key:
for every digit-initial segment (`re.match(r'\d+', idx)`), the path of the
enclosing level (root name and the segments before it). -/
def convertPathsOfKey (name : List Char) (segs : List (List Char)) :
    List (List String) :=
  (List.range segs.length).filterMap (fun i =>
    match segs[i]? with
    | some seg =>
      if (seg.headD ' ').isDigit then
        some ((⟨name⟩ : String) :: (segs.take i).map (fun s => (⟨s⟩ : String)))
      else none
    | none => none)

/-- Append the elements of `ps` not yet present (first-insertion order of the
Python set `convert_to_array_paths`). -/
def addPaths (acc : List (List String)) (ps : List (List String)) :
    List (List String) :=
  ps.foldl (fun acc p => if p ∈ acc then acc else acc ++ [p]) acc

/-- One iteration of the key loop of `unpack_post`: parse the field name,
insert its value with `dpath.util.new` and record conversion paths.  Raises
`malformedFieldName` when the regular expression rejects the key. -/
def insertStep (post : List (String × String))
    (st : PVal × List (List String)) (k : String) :
    Except NErr (PVal × List (List String)) :=
  match parseKey k with
  | none => .error (.malformedFieldName k)
  | some (name, segs, trailingBrackets) =>
    let path := (⟨name⟩ : String) :: segs.map (fun s => (⟨s⟩ : String))
    let value := get_list_or_value post k trailingBrackets
    .ok (dpathNew st.1 path value, addPaths st.2 (convertPathsOfKey name segs))

/-- Phase 1 of `unpack_post`: iterate over the `QueryDict` keys, parse each
field name, insert its value with `dpath.util.new` and record conversion
paths.  Raises `malformedFieldName` at the first key the regular expression
rejects. -/
def unpackInsert (post : List (String × String)) :
    Except NErr (PVal × List (List String)) :=
  (qKeys post).foldlM (insertStep post) (.obj [], [])

/-- Convert one recorded path: read the dict there, interpret every key as an
integer (all-numeric check), and replace the dict by the list of its values
in ascending numeric-key order. -/
def convertPath (v : PVal) (path : List String) : Except NErr PVal :=
  match dpathGet v path with
  | none => .error .keyError
  | some d =>
    match d with
    | .obj fs =>
      match fs.mapM (fun p => charsToNat? p.1.toList) with
      | none => .error .inconsistentArrayObjectMixing
      | some numericKeys =>
        match (numericKeys.insertionSort (· ≤ ·)).mapM
            (fun n => fs.lookup (natToStr n)) with
        | none => .error .keyError
        | some arr => .ok (dpathSet v path (.arr arr))
    | _ => .error .notADict

/-- Phase 2 of `unpack_post`: run the array conversion over every recorded
path. -/
def unpackConvert (v : PVal) (paths : List (List String)) : Except NErr PVal :=
  paths.foldlM convertPath v

/-- The form-data normalizer `unpack_post(post)`. -/
def unpack_post (post : List (String × String)) : Except NErr PVal := do
  let (result, paths) ← unpackInsert post
  unpackConvert result paths

example : parseKey "row" = some ("row".toList, [], false) := by decide
example : parseKey "row[0][id]" = some ("row".toList, ["0".toList, "id".toList], false) := by decide
example : parseKey "tags[]" = some ("tags".toList, [], true) := by decide
example : parseKey "a[][b]" = none := by decide
example : parseKey "a[" = none := by decide
example : parseKey "" = none := by decide
example : parseKey "a b" = none := by decide
example : parseKey "abc\n" = some ("abc".toList, [], false) := by decide
example : parseKey "abc\n\n" = none := by decide
example : parseKey "abc\nd" = none := by decide

example : unpack_post [("name", "Alice")] = .ok (.obj [("name", .str "Alice")]) := rfl
example : unpack_post [("tags[]", "a"), ("tags[]", "b")] =
    .ok (.obj [("tags", .strs ["a", "b"])]) := rfl
example : unpack_post [("row[0][id]", "x"), ("row[1][id]", "y")] =
    .ok (.obj [("row", .arr [.obj [("id", .str "x")], .obj [("id", .str "y")]])]) := rfl
example : unpack_post [("a[2]", "v2"), ("a[0]", "v0")] =
    .ok (.obj [("a", .arr [.str "v0", .str "v2"])]) := rfl
example : unpack_post [("obj[bad][0]", "v"), ("obj[bad][key]", "w")] =
    .error .inconsistentArrayObjectMixing := rfl
example : unpack_post [("a b", "v")] = .error (.malformedFieldName "a b") := rfl

/-! ## Task / Entry data model (`moonsheep/models.py`, migration `0002`) -/

/-- Task states, the `choices` of the `state` field. -/
inductive TState where
  | opened
  | dirty
  | checked
  | manual
deriving DecidableEq, Repr

/-- A `Task` row: id, state, priority (the two-decimal `DecimalField` scaled
to an integer in 0..100), optional parent task and owning document. -/
structure Task where
  id : Nat
  state : TState
  priority : Nat
  parent : Option Nat
  docId : Nat
deriving DecidableEq, Repr

/-- An `Entry` row: task and user references, normalized data,
`closed_manually` flag. -/
structure Entry where
  taskId : Nat
  userId : Nat
  data : PVal
  closed_manually : Bool

/-- The shared store owned by the Task Store collaborator. -/
structure Store where
  tasks : List Task
  entries : List Entry

/-- The `entry__user` lookup: does `user` already have an entry for task `tid`? -/
def hasEntry (s : Store) (user : Nat) (tid : Nat) : Bool :=
  s.entries.any (fun e => e.taskId = tid && e.userId = user)

/-! ## Task Selection Engine (`TaskView.choose_a_task`) -/

/-- The query `Task.objects.filter(state=Task.OPEN).exclude(entry__user=user)`. -/
def eligibleTasks (s : Store) (user : Nat) : List Task :=
  s.tasks.filter (fun t => t.state = TState.opened && !hasEntry s user t.id)

/-- The window `...order_by('-priority')[:20]`: top 20 by priority. -/
def selectionWindow (s : Store) (user : Nat) : List Task :=
  ((eligibleTasks s user).insertionSort (fun a b => b.priority ≤ a.priority)).take 20

/-- The selector `choose_a_task`: raise `NoTasksLeft` on an empty window, else
`random.choice` of the window, modelled by an arbitrary choice index reduced
modulo the window length. -/
def choose_a_task (s : Store) (user : Nat) (choice : Nat) : Except Unit Task :=
  let tasks := selectionWindow s user
  match tasks with
  | [] => .error ()
  | t :: ts => .ok ((t :: ts).get ⟨choice % (t :: ts).length, Nat.mod_lt _ (Nat.succ_pos _)⟩)

/-- The selection request as a store operation: `choose_a_task` only reads
from the store, so the store comes back unchanged. -/
def selectTaskOp (s : Store) (user : Nat) (choice : Nat) :
    Except Unit Task × Store :=
  (choose_a_task s user choice, s)

/-! ## Manual Verification commit (`ManualVerificationView._save_entry`) -/

/-- Errors of the manual commit path. -/
inductive MErr where
  | taskNotDirty
  | taskNotFound
deriving DecidableEq, Repr

/-- Find a task by primary key. -/
def findTask (s : Store) (tid : Nat) : Option Task :=
  s.tasks.find? (fun t => t.id = tid)

/-- Set the state of task `tid`. -/
def setTaskState (s : Store) (tid : Nat) (st : TState) : Store :=
  { s with tasks := s.tasks.map (fun t => if t.id = tid then { t with state := st } else t) }

/-- Modelled from the spec: `AbstractTask.verified_manually` lives in
`moonsheep/tasks.py`, which is not part of the sources; per §4.4 it
transitions the task to `checked` (invoking the `onVerified`/`save` hooks)
and fails with `TaskNotDirty` when the task is not in state `dirty`.  The
error leaves the store as it found it. -/
def verified_manually (s : Store) (tid : Nat) : Option MErr × Store :=
  match findTask s tid with
  | none => (some .taskNotFound, s)
  | some t =>
    if t.state = TState.dirty then (none, setTaskState s tid TState.checked)
    else (some .taskNotDirty, s)

/-- The commit path `ManualVerificationView._save_entry(task_id, data)`: persist a new entry
flagged `closed_manually=True`, then run `verified_manually`.  The entry is
saved before the verification step runs (source order: `e.save()` precedes
`self.task_type.verified_manually(task_id, e)`), and Django's default
autocommit does not roll it back when the verification step raises. -/
def manualSaveEntry (s : Store) (tid : Nat) (user : Nat) (data : PVal) :
    Option MErr × Store :=
  let e : Entry := { taskId := tid, userId := user, data := data, closed_manually := true }
  let s1 : Store := { s with entries := s.entries ++ [e] }
  verified_manually s1 tid

/-! ## Task-Tree builder (`DocumentListView.get_context_data`) -/

/-- Append child `c` to the node registered under `k`; `none` models the
`KeyError` of `nodes[t.parent_id]` when the parent was never registered. -/
def appendChild (m : List (Option Nat × List Nat)) (k : Option Nat) (c : Nat) :
    Option (List (Option Nat × List Nat)) :=
  if m.any (fun p => p.1 = k) then
    some (m.map (fun p => if p.1 = k then (p.1, p.2 ++ [c]) else p))
  else none

/-- One iteration of the tree loop: register `nodes[t.id] = node`, then
`nodes[t.parent_id]['children'].append(node)`. -/
def treeStep (m : List (Option Nat × List Nat)) (t : Task) :
    Option (List (Option Nat × List Nat)) :=
  appendChild (m ++ [(some t.id, [])]) t.parent t.id

/-- The query `Task.objects.filter(doc_id=...).order_by('id')` followed by the node
loop.  Since the Python nodes are mutated in place and shared by reference,
the reference structure is exactly the children map: the key `none` is the
synthetic root `nodes[None]`, and each task id maps to the list of its
children in the order they were appended. -/
def buildTaskTree (tasks : List Task) : Option (List (Option Nat × List Nat)) :=
  (tasks.insertionSort (fun a b => a.id ≤ b.id)).foldlM treeStep [(none, [])]

/-- The children list of the node registered under `k`. -/
def childrenOf (m : List (Option Nat × List Nat)) (k : Option Nat) : List Nat :=
  ((m.find? (fun p => p.1 = k)).map Prod.snd).getD []

/-- The ids of the tasks of `ts` whose parent reference is `j`, in list
order (the order in which the loop appends children). -/
def childIds (ts : List Task) (j : Option Nat) : List Nat :=
  (ts.filter (fun u => u.parent = j)).map Task.id

/-- Closed form of the node map after processing `ts` in order: the
synthetic root first, then one node per task carrying its children. -/
def treeNodes (ts : List Task) : List (Option Nat × List Nat) :=
  (none, childIds ts none) :: ts.map (fun t => (some t.id, childIds ts (some t.id)))

/-! ## POST dispatch (`TaskView.post`) -/

/-- What `TaskView.post` does with a submission, as far as the sources
determine it: the `_task_id` guard raises a `KeyError`, the `_task_type`
guard *returns* the `KeyError` object as the response value, and the
no-form path unpacks the POST data and reaches `_save_entry`. -/
inductive PostOutcome where
  | raisedMissingTaskId
  | returnedKeyErrorMissingTaskType
  | raisedUnpackError (e : NErr)
  | savedEntry (taskId : String) (data : PVal)

/-- The dispatch of `TaskView.post` for a task type with no form defined
(`form is None` branch; the domain-defined form classes are outside these
sources). -/
def taskViewPost (post : List (String × String)) : PostOutcome :=
  if (getlist post "_task_id").isEmpty then .raisedMissingTaskId
  else if (getlist post "_task_type").isEmpty then .returnedKeyErrorMissingTaskType
  else
    match unpack_post post with
    | .error e => .raisedUnpackError e
    | .ok data => .savedEntry ((getlist post "_task_id").headD "") data

/-- Effect of a dispatch outcome on the store for requesting user `user`:
only the `savedEntry` outcome reaches `Entry(...).save()` (the subsequent
`verify_and_save` crosscheck lives in `moonsheep/tasks.py`, outside these
sources, and is not modelled here). -/
def applyPostOutcome (s : Store) (user : Nat) (tid : Nat) :
    PostOutcome → Store
  | .savedEntry _ data =>
    { s with entries := s.entries ++
        [{ taskId := tid, userId := user, data := data, closed_manually := false }] }
  | _ => s

/-! ## Per-field options (`ManualVerificationView.get_context_data`) -/

/-- Model of `values.add(value)` on a Python set: adding an unhashable value (a list
or a dict — the shapes `strs`, `obj` and `arr` of normalizer output) raises
`TypeError`; a plain string is added with duplicates removed. -/
def setAdd (vs : List String) (v : PVal) : Option (List String) :=
  match v with
  | .str s => some (if s ∈ vs then vs else vs ++ [s])
  | _ => none

/-- Fetch the option set accumulated so far for field `fld`
(`fields.get(fld, set())`). -/
def getFieldSet (fields : List (String × List String)) (fld : String) :
    List String :=
  ((fields.lookup fld).getD [])

/-- Process the fields of one entry's data dict. -/
def collectEntryOptions (fields : List (String × List String))
    (data : List (String × PVal)) : Option (List (String × List String)) :=
  data.foldlM (fun fields p => do
    let vs ← setAdd (getFieldSet fields p.1) p.2
    pure (objUpdate fields p.1 vs)) fields

/-- Process one entry: iterate `e.data.items()`. -/
def collectStep (fields : List (String × List String)) (e : Entry) :
    Option (List (String × List String)) :=
  match e.data with
  | .obj data => collectEntryOptions fields data
  | _ => none

/-- Repack all entries of a task as per-field distinct-value options;
`none` models the `TypeError` of `set.add` on an unhashable value. -/
def collectOptions (entries : List Entry) : Option (List (String × List String)) :=
  entries.foldlM collectStep []

/-- A field value whose Python representation is hashable: the normalizer
produces strings (hashable) and lists/dicts (unhashable). -/
def isHashable : PVal → Bool
  | .str _ => true
  | _ => false

/-! ## The path grammar as the spec words it (for the refinement in C7) -/

/-- One bracketed selector, as text. -/
def segRepr (s : List Char) : List Char := '[' :: s ++ [']']

/-- The text of a field name built from root name, selectors and the
optional trailing empty brackets. -/
def keyRepr (name : List Char) (segs : List (List Char)) (forced : Bool) :
    List Char :=
  name ++ (segs.map segRepr).flatten ++ (if forced then ['[', ']'] else [])

/-- A nonempty run of word-class characters. -/
def WordSeg (s : List Char) : Prop := s ≠ [] ∧ ∀ c ∈ s, isWordChar c = true

instance wordSegDecidable (s : List Char) : Decidable (WordSeg s) :=
  decidable_of_iff (s ≠ [] ∧ ∀ c ∈ s, isWordChar c = true) Iff.rfl

/-- The input family for the single-bracket-level theorems: one raw field
per pair, named `name[seg]`, carrying one value. -/
def rowPost (name : List Char) (pairs : List (List Char × String)) :
    List (String × String) :=
  pairs.map (fun q => ((⟨name ++ segRepr q.1⟩ : String), q.2))

/-- The dict the insertion phase builds under the root name for such an
input: one string field per pair, in submission order. -/
def fieldsOf (pairs : List (List Char × String)) : List (String × PVal) :=
  pairs.map (fun q => ((⟨q.1⟩ : String), PVal.str q.2))

/-- C6: the value of a raw key is kept as an ordered sequence of strings
exactly when the key has multiple values or the forced-array trailing `[]`
is present, a single unforced value collapses to the plain string, and
duplicate flat keys merge into one multi-value sequence in submission order
rather than overwriting each other. -/
theorem c6_value_collapse (post : List (String × String)) (k : String)
    (forced : Bool) (hk : getlist post k ≠ []) :
    (get_list_or_value post k forced = .strs (getlist post k) ↔
      2 ≤ (getlist post k).length ∨ forced = true)
    ∧ (∀ v, getlist post k = [v] → forced = false →
        get_list_or_value post k forced = .str v)
    ∧ (∀ pre mid suf v1 v2, post = pre ++ (k, v1) :: mid ++ (k, v2) :: suf →
        get_list_or_value post k forced = .strs (getlist post k) ∧
        ∃ l1 l2 l3, getlist post k = l1 ++ v1 :: l2 ++ v2 :: l3) := by
  have hsplit : ∀ pre mid suf (v1 v2 : String),
      post = pre ++ (k, v1) :: mid ++ (k, v2) :: suf →
      getlist post k = getlist pre k ++ v1 :: getlist mid k ++ v2 :: getlist suf k := by
    intro pre mid suf v1 v2 hpost
    subst hpost
    simp [getlist, List.filter_append]
  refine ⟨?_, ?_, ?_⟩
  · cases hg : getlist post k with
    | nil => exact absurd hg hk
    | cons v tl =>
      cases tl with
      | nil =>
        cases forced with
        | false =>
          simp only [get_list_or_value, hg]
          constructor
          · intro h; cases h
          · rintro (h | h) <;> simp_all
        | true => simp [get_list_or_value, hg]
      | cons w tl2 =>
        simp only [get_list_or_value, hg]
        cases forced <;> simp [Nat.succ_le_succ, Nat.succ_le_succ_iff]
  · intro v hv hf
    subst hf
    simp [get_list_or_value, hv]
  · intro pre mid suf v1 v2 hpost
    have hdec := hsplit pre mid suf v1 v2 hpost
    constructor
    · have hlen : 2 ≤ (getlist post k).length := by
        rw [hdec]; simp; omega
      cases hg : getlist post k with
      | nil => simp [hg] at hlen
      | cons v tl =>
        cases tl with
        | nil => rw [hg] at hlen; simp at hlen
        | cons w tl2 => cases forced <;> simp [get_list_or_value, hg]
    · exact ⟨getlist pre k, getlist mid k, getlist suf k, hdec⟩

/-- C6 witness: two occurrences of the same flat key merge into the ordered
two-element sequence. -/
theorem c6_witness :
    get_list_or_value [("a", "1"), ("a", "2")] "a" false = .strs ["1", "2"] := by
  have h := (c6_value_collapse [("a", "1"), ("a", "2")] "a" false
    (by decide)).2.2 [] [] [] "1" "2" rfl
  have hg : getlist [("a", "1"), ("a", "2")] "a" = ["1", "2"] := rfl
  rw [hg] at h
  exact h.1

/-- C9: a POST carrying `_task_id` but no `_task_type` makes `TaskView.post`
return the `KeyError` value as the response rather than raise it, and no
entry is saved; a POST without `_task_id` raises the `KeyError` instead. -/
theorem c9_post_gate (post : List (String × String)) :
    (getlist post "_task_id" ≠ [] → getlist post "_task_type" = [] →
      taskViewPost post = .returnedKeyErrorMissingTaskType ∧
      ∀ s user tid, applyPostOutcome s user tid (taskViewPost post) = s)
    ∧ (getlist post "_task_id" = [] →
      taskViewPost post = .raisedMissingTaskId ∧
      ∀ s user tid, applyPostOutcome s user tid (taskViewPost post) = s) := by
  constructor
  · intro hid htype
    have h1 : (getlist post "_task_id").isEmpty = false := by
      cases h : getlist post "_task_id" with
      | nil => exact absurd h hid
      | cons a l => rfl
    have hout : taskViewPost post = .returnedKeyErrorMissingTaskType := by
      simp [taskViewPost, h1, htype]
    exact ⟨hout, fun s user tid => by rw [hout]; rfl⟩
  · intro hid
    have hout : taskViewPost post = .raisedMissingTaskId := by
      simp [taskViewPost, hid]
    exact ⟨hout, fun s user tid => by rw [hout]; rfl⟩

/-- C9 witness: a POST with `_task_id` only gets the returned `KeyError`
outcome and the store is untouched; dropping `_task_id` raises. -/
theorem c9_witness :
    (taskViewPost [("_task_id", "1")] = .returnedKeyErrorMissingTaskType ∧
      applyPostOutcome ⟨[], []⟩ 7 1 (taskViewPost [("_task_id", "1")]) = ⟨[], []⟩)
    ∧ taskViewPost [("x", "1")] = .raisedMissingTaskId := by
  refine ⟨⟨?_, ?_⟩, ?_⟩
  · exact ((c9_post_gate [("_task_id", "1")]).1 (by decide) rfl).1
  · exact ((c9_post_gate [("_task_id", "1")]).1 (by decide) rfl).2 ⟨[], []⟩ 7 1
  · exact ((c9_post_gate [("x", "1")]).2 rfl).1

/-- Auxiliary characterization: collecting the options of one entry succeeds
iff every field value is a hashable scalar. -/
theorem collectEntryOptions_isSome (data : List (String × PVal)) :
    ∀ fields, (collectEntryOptions fields data).isSome ↔
      ∀ p ∈ data, isHashable p.2 = true := by
  induction data with
  | nil => intro fields; simp [collectEntryOptions]
  | cons p tl ih =>
    intro fields
    cases hv : p.2 with
    | str s =>
      have : collectEntryOptions fields (p :: tl) =
          collectEntryOptions (objUpdate fields p.1
            (if s ∈ getFieldSet fields p.1 then getFieldSet fields p.1
             else getFieldSet fields p.1 ++ [s])) tl := by
        simp [collectEntryOptions, hv, setAdd]
      rw [this]
      have h2 := ih (objUpdate fields p.1
            (if s ∈ getFieldSet fields p.1 then getFieldSet fields p.1
             else getFieldSet fields p.1 ++ [s]))
      rw [show collectEntryOptions _ tl = _ from rfl] at h2 ⊢
      rw [h2]
      simp [hv, isHashable]
    | strs vs =>
      have : collectEntryOptions fields (p :: tl) = none := by
        simp [collectEntryOptions, hv, setAdd]
      simp [this, hv, isHashable]
    |obj fs =>
      have : collectEntryOptions fields (p :: tl) = none := by
        simp [collectEntryOptions, hv, setAdd]
      simp [this, hv, isHashable]
    | arr xs =>
      have : collectEntryOptions fields (p :: tl) = none := by
        simp [collectEntryOptions, hv, setAdd]
      simp [this, hv, isHashable]

/-- C10: listing per-field disagreement options succeeds exactly when every
field value of every entry is a hashable scalar; an entry with a nested
sequence or object value at some field makes the collection fail. -/
theorem c10_options_hashability (entries : List Entry) :
    ((collectOptions entries).isSome ↔
      ∀ e ∈ entries, ∃ data, e.data = .obj data ∧ ∀ p ∈ data, isHashable p.2 = true)
    ∧ (∀ e ∈ entries, ∀ data, e.data = .obj data →
        ∀ p ∈ data, isHashable p.2 = false → collectOptions entries = none) := by
  have main : ∀ (l : List Entry) (fields : List (String × List String)),
      (l.foldlM collectStep fields).isSome ↔
      ∀ e ∈ l, ∃ data, e.data = .obj data ∧ ∀ p ∈ data, isHashable p.2 = true := by
    intro l
    induction l with
    | nil => intro fields; simp
    | cons e tl ih =>
      intro fields
      rw [List.foldlM_cons]
      cases hd : e.data with
      | obj data =>
        cases hco : collectEntryOptions fields data with
        | none =>
          have hnot : ¬ ∀ p ∈ data, isHashable p.2 = true := by
            intro hall
            have := (collectEntryOptions_isSome data fields).mpr hall
            rw [hco] at this
            exact absurd this (by simp)
          rw [show collectStep fields e = none by simp [collectStep, hd, hco]]
          constructor
          · intro h; simp at h
          · intro h
            rcases h e (by simp) with ⟨data2, hdata2, hall⟩
            rw [hd] at hdata2
            cases hdata2
            exact absurd hall hnot
        | some fields2 =>
          have hall : ∀ p ∈ data, isHashable p.2 = true := by
            have := (collectEntryOptions_isSome data fields).mp (by simp [hco])
            exact this
          rw [show collectStep fields e = some fields2 by simp [collectStep, hd, hco]]
          rw [show ((some fields2 >>= fun fs => tl.foldlM collectStep fs) :
            Option (List (String × List String))) = tl.foldlM collectStep fields2 from rfl]
          rw [ih fields2]
          constructor
          · intro h e2 he2
            rcases List.mem_cons.mp he2 with he2 | he2
            · exact ⟨data, by rw [he2, hd], hall⟩
            · exact h e2 he2
          · intro h e2 he2
            exact h e2 (List.mem_cons_of_mem _ he2)
      | str s =>
        rw [show collectStep fields e = none by simp [collectStep, hd]]
        constructor
        · intro h; simp at h
        · intro h
          rcases h e (by simp) with ⟨data2, hdata2, _⟩
          rw [hd] at hdata2
          cases hdata2
      | strs vs =>
        rw [show collectStep fields e = none by simp [collectStep, hd]]
        constructor
        · intro h; simp at h
        · intro h
          rcases h e (by simp) with ⟨data2, hdata2, _⟩
          rw [hd] at hdata2
          cases hdata2
      | arr xs =>
        rw [show collectStep fields e = none by simp [collectStep, hd]]
        constructor
        · intro h; simp at h
        · intro h
          rcases h e (by simp) with ⟨data2, hdata2, _⟩
          rw [hd] at hdata2
          cases hdata2
  constructor
  · exact main entries []
  · intro e he data hdata p hp hbad
    have : ¬ (collectOptions entries).isSome := by
      rw [collectOptions, main entries []]
      intro hall
      rcases hall e he with ⟨data2, hdata2, hall2⟩
      rw [hdata] at hdata2
      cases hdata2
      have := hall2 p hp
      rw [hbad] at this
      cases this
    cases h : collectOptions entries with
    | none => rfl
    | some fs => rw [h] at this; simp at this

/-- The fairness window is empty exactly when no eligible task exists. -/
theorem selectionWindow_eq_nil_iff (s : Store) (user : Nat) :
    selectionWindow s user = [] ↔ eligibleTasks s user = [] := by
  unfold selectionWindow
  rw [List.take_eq_nil_iff]
  constructor
  · rintro (h | h)
    · exact absurd h (by decide)
    · have hperm := List.perm_insertionSort
        (fun a b : Task => b.priority ≤ a.priority) (eligibleTasks s user)
      rw [h] at hperm
      exact hperm.symm.eq_nil
  · intro h
    right
    rw [h]
    rfl

/-- C2: `choose_a_task` raises `NoTasksLeft` exactly when the requesting
identity has no open task left without one of its entries, for any choice of
the random index; the request mutates no store state. -/
theorem c2_selection_exhaustion (s : Store) (user choice : Nat) :
    (choose_a_task s user choice = .error () ↔ eligibleTasks s user = [])
    ∧ (selectTaskOp s user choice).2 = s := by
  refine ⟨?_, rfl⟩
  rw [← selectionWindow_eq_nil_iff]
  unfold choose_a_task
  cases h : selectionWindow s user with
  | nil => simp
  | cons t ts => simp

/-- C1: any task served by `choose_a_task` is in state `open`, carries no
existing entry of the requesting identity, and lies within the
top-20-by-priority window over exactly those tasks. -/
theorem c1_selection_fairness (s : Store) (user choice : Nat) (t : Task)
    (h : choose_a_task s user choice = .ok t) :
    t.state = TState.opened ∧ hasEntry s user t.id = false ∧
    t ∈ selectionWindow s user := by
  have hmem : t ∈ selectionWindow s user := by
    unfold choose_a_task at h
    cases hw : selectionWindow s user with
    | nil => rw [hw] at h; cases h
    | cons t0 ts =>
      rw [hw] at h
      simp only [Except.ok.injEq] at h
      exact List.mem_iff_get.mpr ⟨_, h⟩
  have hmem2 : t ∈ eligibleTasks s user := by
    have h1 := List.mem_of_mem_take hmem
    exact ((List.perm_insertionSort _ _).mem_iff).mp h1
  have h2 := List.mem_filter.mp hmem2
  have h3 := h2.2
  simp only [Bool.and_eq_true, decide_eq_true_eq, Bool.not_eq_true'] at h3
  exact ⟨h3.1, h3.2, hmem⟩

/-- C1 witness: a store with a single open task serves that task, which is
open, unentered by the identity, and in the window. -/
theorem c1_witness :
    (Task.mk 1 TState.opened 100 none 5).state = TState.opened ∧
    hasEntry ⟨[Task.mk 1 TState.opened 100 none 5], []⟩ 7
      (Task.mk 1 TState.opened 100 none 5).id = false ∧
    Task.mk 1 TState.opened 100 none 5 ∈
      selectionWindow ⟨[Task.mk 1 TState.opened 100 none 5], []⟩ 7 :=
  c1_selection_fairness ⟨[Task.mk 1 TState.opened 100 none 5], []⟩ 7 0
    (Task.mk 1 TState.opened 100 none 5) rfl

/-- C3 counterexample: committing a moderator decision on a task that is
`open` (not `dirty`) fails with `TaskNotDirty`, yet the `closed_manually`
entry has already been persisted — the store is mutated, contradicting the
claim's "no entry is created". -/
theorem c3_counterexample :
    (manualSaveEntry ⟨[Task.mk 1 TState.opened 100 none 5], []⟩ 1 7 (.str "x")).1 =
      some MErr.taskNotDirty ∧
    (manualSaveEntry ⟨[Task.mk 1 TState.opened 100 none 5], []⟩ 1 7 (.str "x")).2.entries.length =
      (⟨[Task.mk 1 TState.opened 100 none 5], []⟩ : Store).entries.length + 1 :=
  ⟨rfl, rfl⟩

/-- C3 (amended): committing a moderator decision always first persists a new
entry with `closed_manually = true` holding the chosen data; on a `dirty`
task it then transitions the task to `checked`, while on a non-dirty task it
fails with `TaskNotDirty`, leaving every task state unchanged but keeping the
already-persisted entry. -/
theorem c3_manual_commit (s : Store) (tid user : Nat) (data : PVal) (t : Task)
    (hfind : findTask s tid = some t) :
    (t.state = TState.dirty →
      manualSaveEntry s tid user data =
        (none, setTaskState
          { s with entries := s.entries ++ [⟨tid, user, data, true⟩] } tid TState.checked))
    ∧ (t.state ≠ TState.dirty →
      manualSaveEntry s tid user data =
        (some MErr.taskNotDirty,
          { s with entries := s.entries ++ [⟨tid, user, data, true⟩] })) := by
  have hfind2 : findTask { s with entries := s.entries ++ [⟨tid, user, data, true⟩] } tid
      = some t := hfind
  constructor
  · intro hdirty
    simp only [manualSaveEntry, verified_manually]
    rw [hfind2]
    dsimp only
    rw [if_pos hdirty]
  · intro hnot
    simp only [manualSaveEntry, verified_manually]
    rw [hfind2]
    dsimp only
    rw [if_neg hnot]

/-- Splitting `childIds` over a snoc of the task list. -/
theorem childIds_append (done : List Task) (r : Task) (j : Option Nat) :
    childIds (done ++ [r]) j =
      childIds done j ++ if r.parent = j then [r.id] else [] := by
  by_cases h : r.parent = j
  · simp [childIds, List.filter_append, h]
  · simp [childIds, List.filter_append, h]

/-- Children ids come from the task list. -/
theorem mem_childIds {x : Nat} {ts : List Task} {j : Option Nat}
    (h : x ∈ childIds ts j) : x ∈ ts.map Task.id := by
  simp only [childIds, List.mem_map, List.mem_filter] at h
  rcases h with ⟨u, ⟨hu, _⟩, hx⟩
  exact List.mem_map.mpr ⟨u, hu, hx⟩

/-- No task of `ts` references `j`: the bucket is empty. -/
theorem childIds_eq_nil {ts : List Task} {j : Option Nat}
    (h : ∀ u ∈ ts, u.parent ≠ j) : childIds ts j = [] := by
  simp only [childIds, List.map_eq_nil_iff]
  exact List.filter_eq_nil_iff.mpr (fun u hu => by simpa using h u hu)


theorem treeStep_treeNodes (done : List Task) (r : Task)
    (hnochild : ∀ u ∈ done, u.parent ≠ some r.id)
    (hself : r.parent ≠ some r.id)
    (hpar : r.parent = none ∨ ∃ p, r.parent = some p ∧ p ∈ done.map Task.id) :
    treeStep (treeNodes done) r = some (treeNodes (done ++ [r])) := by
  have hnewbucket : childIds (done ++ [r]) (some r.id) = [] := by
    apply childIds_eq_nil
    intro u hu
    rcases List.mem_append.mp hu with hu | hu
    · exact hnochild u hu
    · rw [List.mem_singleton.mp hu]; exact hself
  have hany : ((treeNodes done) ++ [(some r.id, [])]).any
      (fun p => p.1 = r.parent) = true := by
    rcases hpar with h | ⟨p, hp, hmem⟩
    · simp [treeNodes, h]
    · rcases List.mem_map.mp hmem with ⟨u, hu, hup⟩
      apply List.any_eq_true.mpr
      refine ⟨(some u.id, childIds done (some u.id)), ?_, by simp [hp, hup]⟩
      apply List.mem_append_left
      exact List.mem_cons_of_mem _ (List.mem_map.mpr ⟨u, hu, rfl⟩)
  have hstep : treeStep (treeNodes done) r =
      appendChild (treeNodes done ++ [(some r.id, [])]) r.parent r.id := rfl
  rw [hstep, appendChild, if_pos hany]
  refine congrArg some ?_
  unfold treeNodes
  simp only [List.map_append, List.map_cons, List.map_nil, List.map_map]
  have h3 : (if some r.id = r.parent then (some r.id, ([] : List Nat) ++ [r.id])
      else (some r.id, ([] : List Nat))) =
      (some r.id, childIds (done ++ [r]) (some r.id)) := by
    rw [hnewbucket, if_neg (show ¬ some r.id = r.parent from fun h => hself h.symm)]
  have h1 : (if none = r.parent then (none, childIds done none ++ [r.id])
      else (none, childIds done none)) =
      ((none : Option Nat), childIds (done ++ [r]) none) := by
    rw [childIds_append]
    rcases hpar with hnone | ⟨p, hp, _⟩
    · simp [hnone]
    · simp [hp]
  have h2 : List.map ((fun p => if p.1 = r.parent then (p.1, p.2 ++ [r.id]) else p) ∘
        fun t => (some t.id, childIds done (some t.id))) done =
      List.map (fun t => (some t.id, childIds (done ++ [r]) (some t.id))) done := by
    apply List.map_congr_left
    intro u _
    simp only [Function.comp_apply]
    rw [childIds_append]
    rcases hpar with hnone | ⟨p, hp, _⟩
    · simp [hnone]
    · by_cases hup : u.id = p
      · simp [hp, hup]
      · have h4 : ¬ p = u.id := fun h => hup h.symm
        simp [hp, hup, h4]
  rw [h3, h1, h2]
  rfl

theorem childIds_cons (u : Task) (tl : List Task) (j : Option Nat) :
    childIds (u :: tl) j =
      if u.parent = j then u.id :: childIds tl j else childIds tl j := by
  by_cases h : u.parent = j <;> simp [childIds, List.filter_cons, h]

theorem count_childIds (t : Task) (j : Option Nat) : ∀ ts : List Task,
    (ts.map Task.id).Nodup → t ∈ ts →
    (childIds ts j).count t.id = if t.parent = j then 1 else 0 := by
  intro ts
  induction ts with
  | nil => intro _ h; cases h
  | cons u tl ih =>
    intro hnd ht
    have hnd2 : (tl.map Task.id).Nodup := (List.nodup_cons.mp (by simpa using hnd)).2
    have hu_not : u.id ∉ tl.map Task.id := (List.nodup_cons.mp (by simpa using hnd)).1
    rw [childIds_cons]
    rcases List.mem_cons.mp ht with hteq | htl
    · subst hteq
      have hzero : (childIds tl j).count t.id = 0 := by
        rw [List.count_eq_zero]
        intro hmem
        exact hu_not (mem_childIds hmem)
      by_cases hp : t.parent = j
      · rw [if_pos hp, if_pos hp, List.count_cons, hzero]
        simp
      · rw [if_neg hp, if_neg hp, hzero]
    · have hne : (u.id == t.id) = false := by
        apply beq_eq_false_iff_ne.mpr
        intro hcontra
        exact hu_not (hcontra ▸ List.mem_map.mpr ⟨t, htl, rfl⟩)
      by_cases hp : u.parent = j
      · rw [if_pos hp, List.count_cons, hne, ih hnd2 htl]
        simp
      · rw [if_neg hp, ih hnd2 htl]

theorem sum_if_eq_count (p : Nat) : ∀ us : List Task,
    (us.map (fun u => if p = u.id then (1 : Nat) else 0)).sum =
      (us.map Task.id).count p := by
  intro us
  induction us with
  | nil => rfl
  | cons u tl ih =>
    simp only [List.map_cons, List.sum_cons, List.count_cons, ih]
    by_cases h : p = u.id
    · have hb : (u.id == p) = true := beq_iff_eq.mpr h.symm
      rw [if_pos h, hb]
      simp
      omega
    · have hb : (u.id == p) = false := beq_eq_false_iff_ne.mpr (fun hh => h hh.symm)
      rw [if_neg h, hb]
      simp

theorem childrenOf_treeNodes_none (ts : List Task) :
    childrenOf (treeNodes ts) none = childIds ts none := by
  simp [childrenOf, treeNodes, List.find?_cons]

theorem find?_entry (ts : List Task) (p : Nat) : ∀ us : List Task,
    p ∈ us.map Task.id →
    (us.map (fun t => (some t.id, childIds ts (some t.id)))).find?
      (fun q => q.1 = some p) = some (some p, childIds ts (some p)) := by
  intro us
  induction us with
  | nil => intro h; simp at h
  | cons u tl ih =>
    intro hmem
    by_cases h : u.id = p
    · simp [List.find?_cons, h]
    · have hmem2 : p ∈ tl.map Task.id := by
        simp only [List.map_cons, List.mem_cons] at hmem
        rcases hmem with hmem | hmem
        · exact absurd hmem.symm h
        · exact hmem
      simp only [List.map_cons, List.find?_cons]
      rw [show (decide ((some u.id : Option Nat) = some p)) = false by simp [h]]
      exact ih hmem2

theorem childrenOf_treeNodes_some (ts : List Task) (p : Nat)
    (hp : p ∈ ts.map Task.id) :
    childrenOf (treeNodes ts) (some p) = childIds ts (some p) := by
  simp only [childrenOf, treeNodes, List.find?_cons]
  rw [show (decide ((none : Option Nat) = some p)) = false by simp]
  rw [find?_entry ts p ts hp]
  rfl

theorem mem_childIds_self {t : Task} {ts : List Task} (ht : t ∈ ts) {j : Option Nat}
    (hj : t.parent = j) : t.id ∈ childIds ts j :=
  List.mem_map.mpr ⟨t, List.mem_filter.mpr ⟨ht, by simp [hj]⟩, rfl⟩

theorem foldlM_treeStep : ∀ (rest done : List Task),
    List.Pairwise (fun a b : Task => a.id < b.id) (done ++ rest) →
    (∀ t ∈ done ++ rest, ∀ p, t.parent = some p →
      p < t.id ∧ p ∈ (done ++ rest).map Task.id) →
    rest.foldlM treeStep (treeNodes done) = some (treeNodes (done ++ rest)) := by
  intro rest
  induction rest with
  | nil => intro done _ _; simp
  | cons r rest2 ih =>
    intro done hsort hpar
    have hsortP := List.pairwise_append.mp hsort
    have hcross := hsortP.2.2
    have hrlt : ∀ v ∈ rest2, r.id < v.id := (List.pairwise_cons.mp hsortP.2.1).1
    have hmemr : r ∈ done ++ r :: rest2 := by simp
    have hnochild : ∀ u ∈ done, u.parent ≠ some r.id := by
      intro u hu hcontra
      have h1 := (hpar u (List.mem_append_left _ hu) r.id hcontra).1
      have h2 := hcross u hu r (by simp)
      omega
    have hself : r.parent ≠ some r.id := by
      intro hcontra
      have h := (hpar r hmemr r.id hcontra).1
      omega
    have hparpos : r.parent = none ∨
        ∃ p, r.parent = some p ∧ p ∈ done.map Task.id := by
      cases hrp : r.parent with
      | none => exact Or.inl rfl
      | some p =>
        refine Or.inr ⟨p, rfl, ?_⟩
        rcases hpar r hmemr p hrp with ⟨hlt, hmem⟩
        rw [List.map_append] at hmem
        rcases List.mem_append.mp hmem with h | h
        · exact h
        · exfalso
          rcases List.mem_map.mp h with ⟨v, hv, hvid⟩
          rcases List.mem_cons.mp hv with hv | hv
          · subst hv; omega
          · have := hrlt v hv; omega
    rw [List.foldlM_cons, treeStep_treeNodes done r hnochild hself hparpos]
    have happ : done ++ r :: rest2 = (done ++ [r]) ++ rest2 := by simp
    rw [happ] at hsort hpar
    have hrec := ih (done ++ [r]) hsort hpar
    show rest2.foldlM treeStep (treeNodes (done ++ [r])) = _
    rw [hrec]
    simp

theorem c4_tree_amended (tasks : List Task)
    (hnodup : (tasks.map Task.id).Nodup)
    (hparent : ∀ t ∈ tasks, ∀ p, t.parent = some p →
      ∃ u ∈ tasks, u.id = p ∧ p < t.id) :
    ∃ m, buildTaskTree tasks = some m ∧
      m.map Prod.fst = none ::
        (tasks.insertionSort (fun a b => a.id ≤ b.id)).map (fun t => some t.id) ∧
      m.length = tasks.length + 1 ∧
      (m.map Prod.fst).Nodup ∧
      (∀ t ∈ tasks, ((m.map Prod.snd).flatten).count t.id = 1) ∧
      (∀ t ∈ tasks, ∀ p, t.parent = some p → t.id ∈ childrenOf m (some p)) ∧
      (∀ t ∈ tasks, t.parent = none → t.id ∈ childrenOf m none) := by
  haveI : IsTotal Task (fun a b => a.id ≤ b.id) := ⟨fun a b => Nat.le_total a.id b.id⟩
  haveI : IsTrans Task (fun a b => a.id ≤ b.id) := ⟨fun a b c h1 h2 => Nat.le_trans h1 h2⟩
  set ts := tasks.insertionSort (fun a b => a.id ≤ b.id) with hts
  have hperm : ts.Perm tasks := List.perm_insertionSort _ _
  have hpermids : (ts.map Task.id).Perm (tasks.map Task.id) := hperm.map _
  have hnd : (ts.map Task.id).Nodup := (hpermids.nodup_iff).mpr hnodup
  have hle : List.Pairwise (fun a b : Task => a.id ≤ b.id) ts :=
    List.sorted_insertionSort _ _
  have hneq : List.Pairwise (fun a b : Task => a.id ≠ b.id) ts :=
    List.pairwise_map.mp hnd
  have hlt : List.Pairwise (fun a b : Task => a.id < b.id) ts :=
    (hle.and hneq).imp (fun h => Nat.lt_of_le_of_ne h.1 h.2)
  have hpar : ∀ t ∈ ts, ∀ p, t.parent = some p → p < t.id ∧ p ∈ ts.map Task.id := by
    intro t ht p hp
    rcases hparent t (hperm.mem_iff.mp ht) p hp with ⟨u, hu, huid, hult⟩
    exact ⟨hult, List.mem_map.mpr ⟨u, hperm.mem_iff.mpr hu, huid⟩⟩
  have hfold : buildTaskTree tasks = some (treeNodes ts) := by
    have h := foldlM_treeStep ts [] (by simpa using hlt) (by simpa using hpar)
    rw [List.nil_append] at h
    have h0 : treeNodes ([] : List Task) = [((none : Option Nat), ([] : List Nat))] := rfl
    rw [h0] at h
    exact h
  have hkeys : (treeNodes ts).map Prod.fst = none :: ts.map (fun t => some t.id) := by
    simp [treeNodes, List.map_map, Function.comp]
  have hsnd : (treeNodes ts).map Prod.snd =
      childIds ts none :: ts.map (fun u => childIds ts (some u.id)) := by
    simp [treeNodes, List.map_map, Function.comp]
  refine ⟨treeNodes ts, hfold, hkeys, ?_, ?_, ?_, ?_, ?_⟩
  · simp [treeNodes, hperm.length_eq]
  · rw [hkeys]
    have hndsome : ((ts.map Task.id).map some).Nodup :=
      hnd.map (fun a b h => Option.some.injEq a b ▸ h)
    rw [show ts.map (fun t => some t.id) = (ts.map Task.id).map some from
      (List.map_map _ _ _).symm]
    exact List.nodup_cons.mpr ⟨by simp, hndsome⟩
  · intro t ht
    have htts : t ∈ ts := hperm.mem_iff.mpr ht
    have hbucket : ∀ j, (childIds ts j).count t.id = if t.parent = j then 1 else 0 :=
      fun j => count_childIds t j ts hnd htts
    rw [hsnd, List.flatten_cons, List.count_append, List.count_flatten, List.map_map]
    rw [hbucket none]
    have hmapped : ts.map (List.count t.id ∘ fun u => childIds ts (some u.id)) =
        ts.map (fun u => if t.parent = some u.id then 1 else 0) :=
      List.map_congr_left (fun u _ => by
        simp only [Function.comp_apply]
        exact hbucket (some u.id))
    rw [hmapped]
    cases hp : t.parent with
    | none =>
      rw [if_pos rfl]
      rw [show (ts.map (fun u => if (none : Option Nat) = some u.id then (1 : Nat) else 0))
          = ts.map (fun _ => (0 : Nat)) from List.map_congr_left (fun u _ => by simp)]
      simp
    | some p =>
      rw [if_neg (by simp)]
      rw [show (ts.map (fun u => if some p = some u.id then (1 : Nat) else 0))
          = ts.map (fun u => if p = u.id then (1 : Nat) else 0) from
          List.map_congr_left (fun u _ => by simp)]
      rw [sum_if_eq_count]
      have hpmem : p ∈ ts.map Task.id := (hpar t htts p hp).2
      rw [List.count_eq_one_of_mem hnd hpmem]
  · intro t ht p hp
    have htts : t ∈ ts := hperm.mem_iff.mpr ht
    have hpmem : p ∈ ts.map Task.id := (hpar t htts p hp).2
    rw [childrenOf_treeNodes_some ts p hpmem]
    exact mem_childIds_self htts hp
  · intro t ht hp
    have htts : t ∈ ts := hperm.mem_iff.mpr ht
    rw [childrenOf_treeNodes_none]
    exact mem_childIds_self htts hp

/-- C4 counterexample: a valid forest in the claim's sense (the only parent
reference names a task in the set) on which the builder nevertheless raises a
`KeyError`: the child's id is smaller than its parent's, so when the loop
reaches it (tasks are processed in id order) the parent node is not yet
registered. -/
theorem c4_counterexample :
    buildTaskTree [Task.mk 1 TState.opened 100 (some 2) 5,
      Task.mk 2 TState.opened 100 none 5] = none := rfl

/-- C4 witness: a two-task tree whose parent has the smaller id builds
correctly, with one node per task, each task in its parent's children and
the root child attached to the synthetic root. -/
theorem c4_witness :
    ∃ m, buildTaskTree [Task.mk 1 TState.opened 100 none 5,
        Task.mk 2 TState.opened 100 (some 1) 5] = some m ∧
      m.map Prod.fst = none ::
        (([Task.mk 1 TState.opened 100 none 5,
           Task.mk 2 TState.opened 100 (some 1) 5].insertionSort
            (fun a b => a.id ≤ b.id)).map (fun t => some t.id)) ∧
      m.length = [Task.mk 1 TState.opened 100 none 5,
        Task.mk 2 TState.opened 100 (some 1) 5].length + 1 ∧
      (m.map Prod.fst).Nodup ∧
      (∀ t ∈ [Task.mk 1 TState.opened 100 none 5,
        Task.mk 2 TState.opened 100 (some 1) 5],
        ((m.map Prod.snd).flatten).count t.id = 1) ∧
      (∀ t ∈ [Task.mk 1 TState.opened 100 none 5,
        Task.mk 2 TState.opened 100 (some 1) 5],
        ∀ p, t.parent = some p → t.id ∈ childrenOf m (some p)) ∧
      (∀ t ∈ [Task.mk 1 TState.opened 100 none 5,
        Task.mk 2 TState.opened 100 (some 1) 5],
        t.parent = none → t.id ∈ childrenOf m none) :=
  c4_tree_amended
    [Task.mk 1 TState.opened 100 none 5, Task.mk 2 TState.opened 100 (some 1) 5]
    (by decide) (by decide)

/-- Consuming word characters extends the root name. -/
theorem foldl_name_word : ∀ (w acc : List Char), (∀ c ∈ w, isWordChar c = true) →
    w.foldl keyParseStep (.name acc) = .name (acc ++ w) := by
  intro w
  induction w with
  | nil => intro acc _; simp
  | cons c tl ih =>
    intro acc hw
    rw [List.foldl_cons,
      show keyParseStep (.name acc) c = .name (acc ++ [c]) by
        simp [keyParseStep, hw c (by simp)],
      ih (acc ++ [c]) (fun x hx => hw x (by simp [hx]))]
    simp

/-- Consuming word characters extends the current bracket segment. -/
theorem foldl_inseg_word : ∀ (w n : List Char) (sg : List (List Char)) (acc : List Char),
    (∀ c ∈ w, isWordChar c = true) →
    w.foldl keyParseStep (.inSeg n sg acc) = .inSeg n sg (acc ++ w) := by
  intro w
  induction w with
  | nil => intro n sg acc _; simp
  | cons c tl ih =>
    intro n sg acc hw
    rw [List.foldl_cons,
      show keyParseStep (.inSeg n sg acc) c = .inSeg n sg (acc ++ [c]) by
        simp [keyParseStep, hw c (by simp)],
      ih n sg (acc ++ [c]) (fun x hx => hw x (by simp [hx]))]
    simp

/-- Consuming one complete bracketed segment from `between`. -/
theorem foldl_seg {s : List Char} (hs : WordSeg s) (n : List Char)
    (sg : List (List Char)) :
    (segRepr s).foldl keyParseStep (.between n sg) = .between n (sg ++ [s]) := by
  show (('[' :: s) ++ [']']).foldl keyParseStep (.between n sg) = _
  rw [List.foldl_append, List.foldl_cons, List.foldl_cons,
    show keyParseStep (.between n sg) '[' = .inSeg n sg [] by simp [keyParseStep],
    foldl_inseg_word s n sg [] hs.2, List.nil_append,
    show keyParseStep (.inSeg n sg s) ']' = .between n (sg ++ [s]) by
      simp [keyParseStep, (by decide : isWordChar ']' = false), hs.1]]
  rfl

/-- Consuming a run of bracketed segments from `between`. -/
theorem foldl_segs : ∀ (sgs : List (List Char)) (n : List Char)
    (sg0 : List (List Char)), (∀ s ∈ sgs, WordSeg s) →
    ((sgs.map segRepr).flatten).foldl keyParseStep (.between n sg0) =
      .between n (sg0 ++ sgs) := by
  intro sgs
  induction sgs with
  | nil => intro n sg0 _; simp
  | cons s tl ih =>
    intro n sg0 hs
    rw [List.map_cons, List.flatten_cons, List.foldl_append,
      foldl_seg (hs s (by simp)) n sg0,
      ih n (sg0 ++ [s]) (fun x hx => hs x (by simp [hx]))]
    simp

/-- Consuming the first bracketed segment from the root-name state. -/
theorem foldl_first_seg {name s : List Char} (hn : WordSeg name) (hs : WordSeg s) :
    (segRepr s).foldl keyParseStep (.name name) = .between name [s] := by
  show (('[' :: s) ++ [']']).foldl keyParseStep (.name name) = _
  rw [List.foldl_append, List.foldl_cons, List.foldl_cons,
    show keyParseStep (.name name) '[' = .inSeg name [] [] by
      simp [keyParseStep, (by decide : isWordChar '[' = false), hn.1],
    foldl_inseg_word s name [] [] hs.2, List.nil_append,
    show keyParseStep (.inSeg name [] s) ']' = .between name [s] by
      simp [keyParseStep, (by decide : isWordChar ']' = false), hs.1]]
  rfl

/-- Completeness of the field-name match at the end anchor: any text built
along the grammar matches back to its pieces. -/
theorem parseKeyCore_complete {name : List Char} {segs : List (List Char)}
    {forced : Bool} (hn : WordSeg name) (hs : ∀ s ∈ segs, WordSeg s) :
    parseKeyCore ⟨keyRepr name segs forced⟩ = some (name, segs, forced) := by
  have hmid : (((segs.map segRepr).flatten).foldl keyParseStep (.name name)) =
      (if segs = [] then .name name else .between name segs) := by
    cases segs with
    | nil => simp
    | cons s tl =>
      rw [List.map_cons, List.flatten_cons, List.foldl_append,
        foldl_first_seg hn (hs s (by simp)),
        foldl_segs tl name [s] (fun x hx => hs x (by simp [hx]))]
      simp
  show keyParseFinish ((keyRepr name segs forced).foldl keyParseStep (.name [])) = _
  rw [keyRepr, List.foldl_append, List.foldl_append,
    foldl_name_word name [] hn.2, List.nil_append, hmid]
  cases segs with
  | nil =>
    cases forced with
    | false => simp [keyParseFinish, hn.1]
    | true =>
      rw [if_pos rfl]
      rw [show (if (true : Bool) then ['[', ']'] else []) = ['[', ']'] from rfl]
      rw [List.foldl_cons,
        show keyParseStep (.name name) '[' = .inSeg name [] [] by
          simp [keyParseStep, (by decide : isWordChar '[' = false), hn.1],
        List.foldl_cons,
        show keyParseStep (.inSeg name [] []) ']' = .trailing name [] by
          simp [keyParseStep, (by decide : isWordChar ']' = false)]]
      rfl
  | cons s tl =>
    rw [if_neg (by simp)]
    cases forced with
    | false => simp [keyParseFinish]
    | true =>
      rw [show (if (true : Bool) then ['[', ']'] else []) = ['[', ']'] from rfl]
      rw [List.foldl_cons,
        show keyParseStep (.between name (s :: tl)) '[' = .inSeg name (s :: tl) [] by
          simp [keyParseStep],
        List.foldl_cons,
        show keyParseStep (.inSeg name (s :: tl) []) ']' = .trailing name (s :: tl) by
          simp [keyParseStep, (by decide : isWordChar ']' = false)]]
      rfl

/-- Completeness of the full Python match: a grammar-built key is accepted
with its pieces. -/
theorem parseKey_complete {name : List Char} {segs : List (List Char)}
    {forced : Bool} (hn : WordSeg name) (hs : ∀ s ∈ segs, WordSeg s) :
    parseKey ⟨keyRepr name segs forced⟩ = some (name, segs, forced) := by
  unfold parseKey
  rw [parseKeyCore_complete hn hs]

/-- A failed digit accumulator never recovers. -/
theorem digitFold_none : ∀ cs : List Char, cs.foldl digitStep none = none := by
  intro cs
  induction cs with
  | nil => rfl
  | cons c tl ih => rw [List.foldl_cons, show digitStep none c = none from rfl, ih]

/-- The digit fold succeeds exactly on all-digit strings. -/
theorem digitFold_isSome : ∀ (cs : List Char) (n : Nat),
    (cs.foldl digitStep (some n)).isSome = true ↔ ∀ c ∈ cs, c.isDigit = true := by
  intro cs
  induction cs with
  | nil => intro n; simp
  | cons c tl ih =>
    intro n
    rw [List.foldl_cons]
    by_cases hd : c.isDigit = true
    · rw [show digitStep (some n) c = some (n * 10 + (c.toNat - '0'.toNat)) by
        simp [digitStep, hd]]
      rw [ih]
      constructor
      · intro h x hx
        rcases List.mem_cons.mp hx with rfl | hx
        · exact hd
        · exact h x hx
      · intro h x hx
        exact h x (List.mem_cons_of_mem _ hx)
    · rw [show digitStep (some n) c = none by simp [digitStep, hd], digitFold_none]
      simp only [Option.isSome_none, Bool.false_eq_true, false_iff]
      intro h
      exact hd (h c (by simp))

/-- Python `int()` succeeds exactly on nonempty all-digit segments. -/
theorem charsToNat?_isSome_iff (cs : List Char) :
    (charsToNat? cs).isSome = true ↔ cs ≠ [] ∧ ∀ c ∈ cs, c.isDigit = true := by
  cases cs with
  | nil => simp [charsToNat?]
  | cons c tl =>
    rw [show charsToNat? (c :: tl) = (c :: tl).foldl digitStep (some 0) from rfl,
      digitFold_isSome]
    simp

/-- A segment accepted by `int()` starts with a digit (so it also triggers
the `re.match(r'\d+', idx)` conversion-path recording). -/
theorem charsToNat?_head_digit {cs : List Char}
    (h : (charsToNat? cs).isSome = true) : (cs.headD ' ').isDigit = true := by
  rcases (charsToNat?_isSome_iff cs).mp h with ⟨hne, hall⟩
  cases cs with
  | nil => exact absurd rfl hne
  | cons c tl => exact hall c (by simp)

/-- Digits of `str(n)` with enough fuel. -/
theorem natToCharsAux_fold : ∀ (fuel n m : Nat), n < fuel →
    (natToCharsAux fuel n).foldl digitStep (some m) =
      some (m * 10 ^ (natToCharsAux fuel n).length + n) := by
  intro fuel
  induction fuel with
  | zero => intro n m h; omega
  | succ fuel ih =>
    intro n m h
    by_cases hn : n < 10
    · rw [show natToCharsAux (fuel + 1) n = [Nat.digitChar n] by
        simp [natToCharsAux, hn]]
      rw [List.foldl_cons, List.foldl_nil,
        show digitStep (some m) (Nat.digitChar n) =
          some (m * 10 + ((Nat.digitChar n).toNat - '0'.toNat)) by
            simp [digitStep, show (Nat.digitChar n).isDigit = true by
              interval_cases n <;> decide]]
      have hv : (Nat.digitChar n).toNat - '0'.toNat = n := by
        interval_cases n <;> decide
      rw [hv]
      simp [pow_one]
    · rw [show natToCharsAux (fuel + 1) n =
        natToCharsAux fuel (n / 10) ++ [Nat.digitChar (n % 10)] by
          simp [natToCharsAux, hn]]
      have hdiv : n / 10 < fuel := by omega
      rw [List.foldl_append, ih (n / 10) m hdiv, List.foldl_cons, List.foldl_nil]
      have hmod : n % 10 < 10 := Nat.mod_lt _ (by omega)
      rw [show digitStep (some (m * 10 ^ (natToCharsAux fuel (n / 10)).length + n / 10))
          (Nat.digitChar (n % 10)) =
          some ((m * 10 ^ (natToCharsAux fuel (n / 10)).length + n / 10) * 10 +
            ((Nat.digitChar (n % 10)).toNat - '0'.toNat)) by
            simp [digitStep, show (Nat.digitChar (n % 10)).isDigit = true by
              interval_cases h2 : (n % 10) <;> decide]]
      have hv : (Nat.digitChar (n % 10)).toNat - '0'.toNat = n % 10 := by
        interval_cases h2 : (n % 10) <;> decide
      rw [hv]
      congr 1
      rw [List.length_append, List.length_cons, List.length_nil]
      rw [pow_succ]
      have := Nat.div_add_mod n 10
      ring_nf
      omega

/-- Python `str(n)` is nonempty. -/
theorem natToChars_ne_nil (n : Nat) : natToChars n ≠ [] := by
  rw [natToChars]
  by_cases hn : n < 10
  · simp [natToCharsAux, hn]
  · simp [natToCharsAux, hn]

/-- Roundtrip `int(str(n)) = n`: the numeric keys recorded for canonical indices read
back to themselves. -/
theorem charsToNat?_natToChars (n : Nat) : charsToNat? (natToChars n) = some n := by
  have hne := natToChars_ne_nil n
  have hfold := natToCharsAux_fold (n + 1) n 0 (by omega)
  rw [show natToCharsAux (n + 1) n = natToChars n from rfl] at hfold
  cases hcs : natToChars n with
  | nil => exact absurd hcs hne
  | cons c tl =>
    rw [show charsToNat? (c :: tl) = (c :: tl).foldl digitStep (some 0) from rfl]
    rw [hcs] at hfold
    rw [hfold]
    simp

/-- Python `str` is injective on naturals. -/
theorem natToChars_injective {a b : Nat} (h : natToChars a = natToChars b) :
    a = b := by
  have ha := charsToNat?_natToChars a
  have hb := charsToNat?_natToChars b
  rw [h, hb] at ha
  injection ha with h2
  exact h2.symm

/-- Digits are word characters. -/
theorem isWordChar_of_isDigit {c : Char} (h : c.isDigit = true) :
    isWordChar c = true := by
  simp [isWordChar, Char.isAlphanum, h]

/-- Python `str(n)` is a well-formed segment. -/
theorem wordSeg_natToChars (n : Nat) : WordSeg (natToChars n) := by
  refine ⟨natToChars_ne_nil n, ?_⟩
  intro c hc
  apply isWordChar_of_isDigit
  have hall := (charsToNat?_isSome_iff (natToChars n)).mp
    (by rw [charsToNat?_natToChars n]; rfl)
  exact hall.2 c hc

/-- An `Option` traversal of mapped elements that all succeed. -/
theorem mapM_map_some {α β γ : Type} (f : β → Option γ) (g : α → β) (h : α → γ) :
    ∀ (l : List α), (∀ x ∈ l, f (g x) = some (h x)) →
    (l.map g).mapM f = some (l.map h) := by
  intro l
  induction l with
  | nil => intro _; rfl
  | cons a tl ih =>
    intro hall
    rw [List.map_cons, List.mapM_cons, hall a (by simp),
      ih (fun x hx => hall x (List.mem_cons_of_mem _ hx))]
    rfl

/-- With pairwise-distinct raw keys, `QueryDict.keys()` is just the key
column. -/
theorem qKeys_nodup : ∀ (post : List (String × String)) (acc : List String),
    (∀ p ∈ post, p.1 ∉ acc) → (post.map Prod.fst).Nodup →
    post.foldl (fun acc p => if p.1 ∈ acc then acc else acc ++ [p.1]) acc =
      acc ++ post.map Prod.fst := by
  intro post
  induction post with
  | nil => intro acc _ _; simp
  | cons p tl ih =>
    intro acc hfresh hnd
    rw [List.map_cons, List.nodup_cons] at hnd
    rw [List.foldl_cons, if_neg (hfresh p (by simp))]
    rw [ih (acc ++ [p.1]) ?_ hnd.2]
    · simp
    · intro p2 hp2 hmem
      rcases List.mem_append.mp hmem with h | h
      · exact hfresh p2 (List.mem_cons_of_mem _ hp2) h
      · have : p.1 ∈ tl.map Prod.fst := by
          rw [← List.mem_singleton.mp h]
          exact List.mem_map.mpr ⟨p2, hp2, rfl⟩
        exact hnd.1 this

/-- Raw keys of the row family are built injectively from the segments. -/
theorem rowKey_inj {name s1 s2 : List Char}
    (h : (⟨name ++ segRepr s1⟩ : String) = ⟨name ++ segRepr s2⟩) : s1 = s2 := by
  have h2 : name ++ segRepr s1 = name ++ segRepr s2 := congrArg String.data h
  have h3 := List.append_cancel_left h2
  rw [segRepr, segRepr] at h3
  have h4 := List.append_cancel_right h3
  injection h4

/-- Value list of one raw key of the row family. -/
theorem getlist_rowPost (name : List Char) :
    ∀ (pairs : List (List Char × String)), (pairs.map Prod.fst).Nodup →
    ∀ q ∈ pairs, getlist (rowPost name pairs) ⟨name ++ segRepr q.1⟩ = [q.2] := by
  intro pairs
  induction pairs with
  | nil => intro _ q hq; cases hq
  | cons p tl ih =>
    intro hnd q hq
    rw [List.map_cons, List.nodup_cons] at hnd
    have hnd2 := hnd
    rcases List.mem_cons.mp hq with rfl | hq
    · rw [rowPost, List.map_cons,
        show getlist ((((⟨name ++ segRepr q.1⟩ : String), q.2)) ::
          tl.map (fun q => ((⟨name ++ segRepr q.1⟩ : String), q.2)))
          ⟨name ++ segRepr q.1⟩ =
          q.2 :: getlist (rowPost name tl) ⟨name ++ segRepr q.1⟩ by
            simp [getlist, rowPost, List.filter_cons]]
      have hnil : getlist (rowPost name tl) ⟨name ++ segRepr q.1⟩ = [] := by
        rw [getlist, List.filter_eq_nil_iff.mpr, List.map_nil]
        intro a ha
        simp only [rowPost, List.mem_map] at ha
        rcases ha with ⟨q2, hq2, rfl⟩
        simp only [decide_eq_true_eq]
        intro hcontra
        have := rowKey_inj hcontra
        exact hnd2.1 (this ▸ List.mem_map.mpr ⟨q2, hq2, rfl⟩)
      rw [hnil]
    · have hne : (⟨name ++ segRepr p.1⟩ : String) ≠ ⟨name ++ segRepr q.1⟩ := by
        intro hcontra
        have := rowKey_inj hcontra
        exact hnd2.1 (this ▸ List.mem_map.mpr ⟨q, hq, rfl⟩)
      rw [show getlist (rowPost name (p :: tl)) ⟨name ++ segRepr q.1⟩ =
          getlist (rowPost name tl) ⟨name ++ segRepr q.1⟩ by
            simp [getlist, rowPost, List.filter_cons, hne]]
      exact ih hnd2.2 q hq

/-- A single-bracket key parses to its root and segment. -/
theorem parseKey_rowKey {name seg : List Char} (hn : WordSeg name)
    (hs : WordSeg seg) :
    parseKey ⟨name ++ segRepr seg⟩ = some (name, [seg], false) := by
  have h : (⟨name ++ segRepr seg⟩ : String) = ⟨keyRepr name [seg] false⟩ := by
    apply congrArg String.mk
    simp [keyRepr]
  rw [h]
  exact parseKey_complete hn (by
    intro s hs2
    rw [List.mem_singleton.mp hs2]
    exact hs)

/-- Conversion paths recorded for a single-bracket key. -/
theorem convertPathsOfKey_single (name seg : List Char) :
    convertPathsOfKey name [seg] =
      if (seg.headD ' ').isDigit then [[(⟨name⟩ : String)]] else [] := by
  by_cases h : (seg.headD ' ').isDigit = true <;>
    rw [List.headD_eq_head?_getD] at h <;>
    simp [convertPathsOfKey, List.range_succ, List.filterMap_cons,
      List.headD_eq_head?_getD, h]

/-- One key-loop iteration of the row family on a root dict that already
carries the name. -/
theorem insertStep_row (post : List (String × String)) {name seg : List Char}
    (hn : WordSeg name) (hs : WordSeg seg) {v2 : String}
    (hget : getlist post ⟨name ++ segRepr seg⟩ = [v2])
    (fields0 : List (String × PVal)) (paths0 : List (List String)) :
    insertStep post (.obj [((⟨name⟩ : String), .obj fields0)], paths0)
      ⟨name ++ segRepr seg⟩ =
    .ok (.obj [((⟨name⟩ : String),
        .obj (objUpdate fields0 (⟨seg⟩ : String) (.str v2)))],
      addPaths paths0 (convertPathsOfKey name [seg])) := by
  unfold insertStep
  rw [parseKey_rowKey hn hs]
  have hval : get_list_or_value post ⟨name ++ segRepr seg⟩ false = .str v2 := by
    simp [get_list_or_value, hget]
  dsimp only
  rw [hval]
  have hD : dpathNew (.obj [((⟨name⟩ : String), .obj fields0)])
      [(⟨name⟩ : String), (⟨seg⟩ : String)] (.str v2) =
      .obj [((⟨name⟩ : String), .obj (objUpdate fields0 ⟨seg⟩ (.str v2)))] := by
    simp only [dpathNew, objUpdate, List.lookup_cons]
    rw [show (({ data := name } : String) == { data := name }) = true from by simp]
    simp [objUpdate]
  simp only [List.map_cons, List.map_nil]
  rw [hD]

/-- The first key-loop iteration of the row family, from the empty dict. -/
theorem insertStep_row_start (post : List (String × String)) {name seg : List Char}
    (hn : WordSeg name) (hs : WordSeg seg) {v2 : String}
    (hget : getlist post ⟨name ++ segRepr seg⟩ = [v2])
    (paths0 : List (List String)) :
    insertStep post (.obj [], paths0) ⟨name ++ segRepr seg⟩ =
    .ok (.obj [((⟨name⟩ : String), .obj [((⟨seg⟩ : String), PVal.str v2)])],
      addPaths paths0 (convertPathsOfKey name [seg])) := by
  unfold insertStep
  rw [parseKey_rowKey hn hs]
  have hval : get_list_or_value post ⟨name ++ segRepr seg⟩ false = .str v2 := by
    simp [get_list_or_value, hget]
  dsimp only
  rw [hval]
  have hD : dpathNew (.obj []) [(⟨name⟩ : String), (⟨seg⟩ : String)] (.str v2) =
      .obj [((⟨name⟩ : String), .obj [((⟨seg⟩ : String), PVal.str v2)])] := by
    simp [dpathNew, objUpdate, List.lookup_cons]
  simp only [List.map_cons, List.map_nil]
  rw [hD]

/-- Adding the root path to the recorded set, case table. -/
theorem addPaths_cases (n : String) (a b : Bool) :
    addPaths (if a then [[n]] else []) (if b then [[n]] else []) =
    if a || b then [[n]] else [] := by
  cases a <;> cases b <;> simp [addPaths]

/-- Adding the root path to the empty recorded set. -/
theorem addPaths_nil_cases (n : String) (b : Bool) :
    addPaths [] (if b then [[n]] else []) = if b then [[n]] else [] := by
  cases b <;> simp [addPaths]

/-- The key loop of the row family preserves the single-root-name shape and
accumulates the fields and the conversion path. -/
theorem insert_row_fold (post : List (String × String)) (name : List Char)
    (hn : WordSeg name) :
    ∀ (rest : List (List Char × String)) (fields0 : List (String × PVal))
      (b0 : Bool),
    (∀ q ∈ rest, WordSeg q.1) →
    (∀ q ∈ rest, getlist post ⟨name ++ segRepr q.1⟩ = [q.2]) →
    (∀ q ∈ rest, (⟨q.1⟩ : String) ∉ fields0.map Prod.fst) →
    (rest.map Prod.fst).Nodup →
    (rest.map (fun q => ((⟨name ++ segRepr q.1⟩ : String)))).foldlM
        (insertStep post)
        (.obj [((⟨name⟩ : String), .obj fields0)],
          if b0 then [[(⟨name⟩ : String)]] else []) =
      .ok (.obj [((⟨name⟩ : String), .obj (fields0 ++ fieldsOf rest))],
        if b0 || rest.any (fun q => (q.1.headD ' ').isDigit)
        then [[(⟨name⟩ : String)]] else []) := by
  intro rest
  induction rest with
  | nil =>
    intro fields0 b0 _ _ _ _
    simp only [List.map_nil, List.foldlM_nil, fieldsOf, List.append_nil,
      List.any_nil, Bool.or_false]
    rfl
  | cons q tl ih =>
    intro fields0 b0 hseg hget hfresh hnd
    rw [List.map_cons, List.nodup_cons] at hnd
    rw [List.map_cons, List.foldlM_cons,
      insertStep_row post hn (hseg q (by simp)) (hget q (by simp)) fields0 _]
    rw [show objUpdate fields0 (⟨q.1⟩ : String) (.str q.2) =
        fields0 ++ [((⟨q.1⟩ : String), PVal.str q.2)] by
      rw [objUpdate, if_neg]
      simp only [List.any_eq_true, decide_eq_true_eq, not_exists]
      intro f hf
      exact hfresh q (by simp) (hf.2 ▸ List.mem_map.mpr ⟨f, hf.1, rfl⟩)]
    rw [convertPathsOfKey_single,
      addPaths_cases (⟨name⟩ : String) b0 ((q.1.headD ' ').isDigit)]
    have hrec := ih (fields0 ++ [((⟨q.1⟩ : String), PVal.str q.2)])
      (b0 || (q.1.headD ' ').isDigit)
      (fun x hx => hseg x (List.mem_cons_of_mem _ hx))
      (fun x hx => hget x (List.mem_cons_of_mem _ hx))
      (by
        intro x hx
        rw [List.map_append, List.mem_append]
        rintro (h | h)
        · exact hfresh x (List.mem_cons_of_mem _ hx) h
        · simp only [List.map_cons, List.map_nil, List.mem_singleton] at h
          have hx1 : x.1 = q.1 := congrArg String.data h
          exact hnd.1 (hx1 ▸ List.mem_map.mpr ⟨x, hx, rfl⟩))
      hnd.2
    rw [show ((do
        let init ← (Except.ok (.obj [((⟨name⟩ : String),
          .obj (fields0 ++ [((⟨q.1⟩ : String), PVal.str q.2)]))],
          if b0 || (q.1.headD ' ').isDigit then [[(⟨name⟩ : String)]] else [])
            : Except NErr (PVal × List (List String)))
        (tl.map (fun q => ((⟨name ++ segRepr q.1⟩ : String)))).foldlM
          (insertStep post) init) :
        Except NErr (PVal × List (List String))) =
        (tl.map (fun q => ((⟨name ++ segRepr q.1⟩ : String)))).foldlM
          (insertStep post)
          (.obj [((⟨name⟩ : String),
            .obj (fields0 ++ [((⟨q.1⟩ : String), PVal.str q.2)]))],
            if b0 || (q.1.headD ' ').isDigit then [[(⟨name⟩ : String)]] else [])
        from rfl]
    rw [hrec, List.append_assoc]
    simp only [show [((⟨q.1⟩ : String), PVal.str q.2)] ++ fieldsOf tl =
      fieldsOf (q :: tl) from rfl, List.any_cons, Bool.or_assoc]

/-- Phase 1 on the whole row-family input. -/
theorem unpackInsert_rowPost (name : List Char) (hn : WordSeg name)
    (pairs : List (List Char × String)) (hne : pairs ≠ [])
    (hseg : ∀ q ∈ pairs, WordSeg q.1)
    (hnd : (pairs.map Prod.fst).Nodup) :
    unpackInsert (rowPost name pairs) =
      .ok (.obj [((⟨name⟩ : String), .obj (fieldsOf pairs))],
        if pairs.any (fun q => (q.1.headD ' ').isDigit)
        then [[(⟨name⟩ : String)]] else []) := by
  have hkeys : qKeys (rowPost name pairs) =
      pairs.map (fun q => ((⟨name ++ segRepr q.1⟩ : String))) := by
    have hmapfst : (rowPost name pairs).map Prod.fst =
        pairs.map (fun q => ((⟨name ++ segRepr q.1⟩ : String))) := by
      simp [rowPost, List.map_map, Function.comp]
    have hkeysnd : ((rowPost name pairs).map Prod.fst).Nodup := by
      rw [hmapfst]
      rw [show pairs.map (fun q => ((⟨name ++ segRepr q.1⟩ : String))) =
        (pairs.map Prod.fst).map (fun s => ((⟨name ++ segRepr s⟩ : String))) by
          rw [List.map_map]; rfl]
      exact hnd.map (fun a b h => rowKey_inj h)
    have h := qKeys_nodup (rowPost name pairs) [] (by simp) hkeysnd
    rw [qKeys, h, List.nil_append, hmapfst]
  rw [unpackInsert, hkeys]
  cases pairs with
  | nil => exact absurd rfl hne
  | cons q tl =>
    rw [List.map_cons, List.nodup_cons] at hnd
    rw [List.map_cons, List.foldlM_cons,
      insertStep_row_start (rowPost name (q :: tl)) hn (hseg q (by simp))
        (getlist_rowPost name (q :: tl)
          (by rw [List.map_cons, List.nodup_cons]; exact hnd) q (by simp)) [],
      convertPathsOfKey_single]
    rw [addPaths_nil_cases (⟨name⟩ : String) ((q.1.headD ' ').isDigit)]
    have hrec := insert_row_fold (rowPost name (q :: tl)) name hn tl
      [((⟨q.1⟩ : String), PVal.str q.2)] ((q.1.headD ' ').isDigit)
      (fun x hx => hseg x (List.mem_cons_of_mem _ hx))
      (fun x hx => getlist_rowPost name (q :: tl)
        (by rw [List.map_cons, List.nodup_cons]; exact hnd) x
        (List.mem_cons_of_mem _ hx))
      (by
        intro x hx
        simp only [List.map_cons, List.map_nil, List.mem_singleton]
        intro hcontra
        have hx1 : x.1 = q.1 := congrArg String.data hcontra
        exact hnd.1 (hx1 ▸ List.mem_map.mpr ⟨x, hx, rfl⟩))
      hnd.2
    rw [show ((do
        let init ← (Except.ok (.obj [((⟨name⟩ : String),
          .obj [((⟨q.1⟩ : String), PVal.str q.2)])],
          if (q.1.headD ' ').isDigit then [[(⟨name⟩ : String)]] else [])
            : Except NErr (PVal × List (List String)))
        (tl.map (fun q => ((⟨name ++ segRepr q.1⟩ : String)))).foldlM
          (insertStep (rowPost name (q :: tl))) init) :
        Except NErr (PVal × List (List String))) =
        (tl.map (fun q => ((⟨name ++ segRepr q.1⟩ : String)))).foldlM
          (insertStep (rowPost name (q :: tl)))
          (.obj [((⟨name⟩ : String), .obj [((⟨q.1⟩ : String), PVal.str q.2)])],
            if (q.1.headD ' ').isDigit then [[(⟨name⟩ : String)]] else [])
        from rfl]
    rw [hrec]
    simp only [show ([((⟨q.1⟩ : String), PVal.str q.2)] : List (String × PVal)) ++
      fieldsOf tl = fieldsOf (q :: tl) from rfl, List.any_cons]

/-- Python `sorted` on the key column commutes with sorting the pairs
(auxiliary for the numeric-level theorem). -/
theorem orderedInsert_map_fst (p : Nat × String) : ∀ (l : List (Nat × String)),
    List.orderedInsert (· ≤ ·) p.1 (l.map Prod.fst) =
      (List.orderedInsert (fun a b => a.1 ≤ b.1) p l).map Prod.fst := by
  intro l
  induction l with
  | nil => rfl
  | cons x tl ih =>
    by_cases h : p.1 ≤ x.1 <;> simp [List.orderedInsert, h, ih]

/-- Python `sorted` of the numeric keys is the key column of the sorted
pairs. -/
theorem insertionSort_map_fst (pairs : List (Nat × String)) :
    (pairs.map Prod.fst).insertionSort (· ≤ ·) =
      (pairs.insertionSort (fun a b => a.1 ≤ b.1)).map Prod.fst := by
  induction pairs with
  | nil => rfl
  | cons p tl ih => simp [List.insertionSort, ih, orderedInsert_map_fst]

/-- Python `str` is injective as a `String` producer. -/
theorem natToStr_injective {a b : Nat} (h : natToStr a = natToStr b) : a = b :=
  natToChars_injective (congrArg String.data h)

/-- Lookup `d[str(k_int)]` recovers the value stored for a canonical numeric key. -/
theorem lookup_natToStr_fieldsOf : ∀ (pairs : List (Nat × String)),
    (pairs.map Prod.fst).Nodup →
    ∀ p ∈ pairs,
    (pairs.map (fun p => (natToStr p.1, PVal.str p.2))).lookup (natToStr p.1) =
      some (.str p.2) := by
  intro pairs
  induction pairs with
  | nil => intro _ p hp; cases hp
  | cons x tl ih =>
    intro hnd p hp
    rw [List.map_cons, List.nodup_cons] at hnd
    rcases List.mem_cons.mp hp with rfl | hp
    · rw [List.map_cons, List.lookup_cons]
      rw [show (natToStr p.1 == natToStr p.1) = true from beq_self_eq_true _]
    · have hne : (natToStr p.1 == natToStr x.1) = false := by
        apply beq_eq_false_iff_ne.mpr
        intro hcontra
        have := natToStr_injective hcontra
        exact hnd.1 (this ▸ List.mem_map.mpr ⟨p, hp, rfl⟩)
      rw [List.map_cons, List.lookup_cons, hne]
      exact ih hnd.2 p hp

/-- C5 counterexample: a well-formed sparse nested submission
(`a[0][b][0]`, `a[2][b][0]`) on which the normalizer fails wholesale with a
`KeyError` instead of materializing the numeric levels: compacting the
sparse outer level `a` (indices 0 and 2) invalidates the recorded inner
path `a/2/b`. -/
theorem c5_counterexample :
    unpack_post [("a[0][b][0]", "u"), ("a[2][b][0]", "v")] = .error .keyError := rfl

/-- C5 (amended): a single all-numeric bracket level with distinct canonical
indices is materialized as an ordered array sorted by the numeric value of
the keys, compact, with gaps skipped. -/
theorem c5_numeric_level (name : List Char) (pairs : List (Nat × String))
    (hn : WordSeg name) (hne : pairs ≠ [])
    (hnd : (pairs.map Prod.fst).Nodup) :
    unpack_post (rowPost name (pairs.map (fun p => (natToChars p.1, p.2)))) =
      .ok (.obj [((⟨name⟩ : String),
        .arr ((pairs.insertionSort (fun a b => a.1 ≤ b.1)).map
          (fun p => PVal.str p.2)))]) := by
  have hseg : ∀ q ∈ pairs.map (fun p => (natToChars p.1, p.2)), WordSeg q.1 := by
    intro q hq
    rcases List.mem_map.mp hq with ⟨p, _, rfl⟩
    exact wordSeg_natToChars p.1
  have hne2 : pairs.map (fun p => (natToChars p.1, p.2)) ≠ [] := by
    intro h
    exact hne (List.map_eq_nil_iff.mp h)
  have hnd2 : ((pairs.map (fun p => (natToChars p.1, p.2))).map Prod.fst).Nodup := by
    rw [show (pairs.map (fun p => (natToChars p.1, p.2))).map Prod.fst =
      (pairs.map Prod.fst).map natToChars by
        rw [List.map_map, List.map_map]; rfl]
    exact hnd.map (fun a b h => natToChars_injective h)
  have hins := unpackInsert_rowPost name hn _ hne2 hseg hnd2
  have hany : (pairs.map (fun p => (natToChars p.1, p.2))).any
      (fun q => (q.1.headD ' ').isDigit) = true := by
    rcases List.exists_mem_of_ne_nil pairs hne with ⟨p, hp⟩
    refine List.any_eq_true.mpr ⟨(natToChars p.1, p.2),
      List.mem_map.mpr ⟨p, hp, rfl⟩, ?_⟩
    exact charsToNat?_head_digit (by rw [charsToNat?_natToChars]; rfl)
  rw [if_pos hany] at hins
  have hfields : fieldsOf (pairs.map (fun p => (natToChars p.1, p.2))) =
      pairs.map (fun p => (natToStr p.1, PVal.str p.2)) := by
    rw [fieldsOf, List.map_map]
    rfl
  rw [hfields] at hins
  have hget : dpathGet (.obj [((⟨name⟩ : String),
      .obj (pairs.map (fun p => (natToStr p.1, PVal.str p.2))))])
      [(⟨name⟩ : String)] =
      some (.obj (pairs.map (fun p => (natToStr p.1, PVal.str p.2)))) := by
    simp [dpathGet, List.lookup_cons]
  have hmapM : (pairs.map (fun p => (natToStr p.1, PVal.str p.2))).mapM
      (fun p => charsToNat? p.1.toList) = some (pairs.map Prod.fst) := by
    apply mapM_map_some
    intro p _
    exact charsToNat?_natToChars p.1
  have hlookups : ((pairs.map Prod.fst).insertionSort (· ≤ ·)).mapM
      (fun n => (pairs.map (fun p => (natToStr p.1, PVal.str p.2))).lookup
        (natToStr n)) =
      some ((pairs.insertionSort (fun a b => a.1 ≤ b.1)).map
        (fun p => PVal.str p.2)) := by
    rw [insertionSort_map_fst]
    apply mapM_map_some
    intro p hp
    exact lookup_natToStr_fieldsOf pairs hnd p
      ((List.perm_insertionSort (fun a b : Nat × String => a.1 ≤ b.1)
        pairs).mem_iff.mp hp)
  have hset : dpathSet (.obj [((⟨name⟩ : String),
      .obj (pairs.map (fun p => (natToStr p.1, PVal.str p.2))))])
      [(⟨name⟩ : String)]
      (.arr ((pairs.insertionSort (fun a b => a.1 ≤ b.1)).map
        (fun p => PVal.str p.2))) =
      .obj [((⟨name⟩ : String),
        .arr ((pairs.insertionSort (fun a b => a.1 ≤ b.1)).map
          (fun p => PVal.str p.2)))] := by
    simp [dpathSet]
  have hcp : convertPath (.obj [((⟨name⟩ : String),
      .obj (pairs.map (fun p => (natToStr p.1, PVal.str p.2))))])
      [(⟨name⟩ : String)] =
      .ok (.obj [((⟨name⟩ : String),
        .arr ((pairs.insertionSort (fun a b => a.1 ≤ b.1)).map
          (fun p => PVal.str p.2)))]) := by
    unfold convertPath
    rw [hget]
    dsimp only
    rw [hmapM]
    dsimp only
    rw [hlookups]
    dsimp only
    rw [hset]
  have hfinal : unpack_post (rowPost name (pairs.map (fun p => (natToChars p.1, p.2)))) =
      unpackConvert (.obj [((⟨name⟩ : String),
        .obj (pairs.map (fun p => (natToStr p.1, PVal.str p.2))))])
        [[(⟨name⟩ : String)]] := by
    unfold unpack_post
    rw [hins]
    rfl
  rw [hfinal, unpackConvert, List.foldlM_cons, hcp]
  rfl

/-- C5 witness: sparse indices 2 and 0 come back as the compact ascending
array of their values. -/
theorem c5_witness :
    unpack_post (rowPost "row".toList
      ([(2, "b"), (0, "a")].map (fun p => (natToChars p.1, p.2)))) =
      .ok (.obj [("row",
        .arr (([(2, "b"), (0, "a")].insertionSort (fun a b => a.1 ≤ b.1)).map
          (fun p => PVal.str p.2)))]) :=
  c5_numeric_level "row".toList [(2, "b"), (0, "a")]
    (by decide) (by decide) (by decide)

/-- C3 witness: on a `dirty` task the commit succeeds, appends the
moderator's entry and marks the task `checked`. -/
theorem c3_witness :
    manualSaveEntry ⟨[Task.mk 1 TState.dirty 100 none 5], []⟩ 1 7 (.str "x") =
      (none, setTaskState
        ⟨[Task.mk 1 TState.dirty 100 none 5], [⟨1, 7, .str "x", true⟩]⟩ 1 TState.checked) :=
  (c3_manual_commit ⟨[Task.mk 1 TState.dirty 100 none 5], []⟩ 1 7 (.str "x")
    (Task.mk 1 TState.dirty 100 none 5) rfl).1 rfl

end Moonsheep
